import Mathlib

/-!
Shallow embedding of the UDP neuromorphic event receiver
(`src/test_UDP/neuromorphic_udp_visualizer.py`) for checking its
specification.

Byte buffers are `List Nat` (each entry one byte of the datagram).
Wall-clock times and latencies are rationals (`ℚ`); the Python floats
carry the same arithmetic here without rounding.  Every `time.time()`
read in the Python code becomes an explicit parameter of the embedded
function, so the state-passing is explicit and decoding is visibly a
pure function of the bytes.
-/

namespace NeuroUDP

/-- Screen width used by the coordinate validation (`1920` in the code). -/
def screenWidth : Nat := 1920

/-- Screen height used by the coordinate validation (`1080` in the code). -/
def screenHeight : Nat := 1080

/-- Capacity of the event store: `deque(maxlen=100000)` in `EventData.__init__`. -/
def capacity : Nat := 100000

/-- `DOT_FADE_DURATION = 0.1` — the 100 ms fade window. -/
def DOT_FADE_DURATION : ℚ := 1/10

/-- Record size used by the visualizer's decoder: `event_size = 16`. -/
def event_size : Nat := 16

/-- `max_latency_samples = 100` — bound on the rolling latency sample. -/
def max_latency_samples : Nat := 100

/-- Little-endian unsigned integer of a byte list, as in `struct.unpack` with
formats `<Q` / `<H`: byte `i` contributes `bᵢ · 256^i`. -/
def leNat (bs : List Nat) : Nat :=
  bs.foldr (fun b acc => b + 256 * acc) 0

/-- Signed byte, as in `struct.unpack('<b', ...)`: values `128..255` wrap to
`-128..-1`. -/
def sbyte (b : Nat) : Int :=
  if b < 128 then (b : Int) else (b : Int) - 256

/-- One decoded event record before the receive-time stamp: the four fields
read out of a record slice in `_process_packet`. -/
structure RawEvent where
  timestamp : Nat
  x : Nat
  y : Nat
  polarity : Int
  deriving Repr, DecidableEq

/-- A stored event: a raw event plus the `received_time` stamp attached at
insertion (`EventData.events` entries). -/
structure Event where
  timestamp : Nat
  x : Nat
  y : Nat
  polarity : Int
  received_time : ℚ
  deriving Repr, DecidableEq

/-- Decode one record slice, mirroring the four `struct.unpack` calls:
`<Q` at bytes 0..8, `<H` at 8..10, `<H` at 10..12, `<b` at 12..13. -/
def decodeRecord (bs : List Nat) : RawEvent :=
  { timestamp := leNat (bs.take 8)
    x := leNat ((bs.drop 8).take 2)
    y := leNat ((bs.drop 10).take 2)
    polarity := sbyte (((bs.drop 12).take 1).headD 0) }

/-- The coordinate validation of `_process_packet`:
`if 0 <= x <= 1920 and 0 <= y <= 1080`.  `x` and `y` come from `<H`
(unsigned 16-bit) so the lower bounds are vacuous here. -/
def inBounds (r : RawEvent) : Bool :=
  decide (r.x ≤ 1920 ∧ r.y ≤ 1080)

/-- The record loop of `_process_packet`, parametrised by the record size
`rs` (the code injects `event_size = 16`): `num_events = len(event_data) // rs`;
for each `i < num_events`, slice `rs` bytes at offset `i*rs` of the payload
(= offset `8 + i*rs` of the datagram), guarded by the code's two checks
(`offset + rs <= len(event_data)` and `len(event_bytes) >= 13`). -/
def decodeCandidates (rs : Nat) (data : List Nat) : List RawEvent :=
  let event_data := data.drop 8
  let num_events := event_data.length / rs
  (List.range num_events).filterMap (fun i =>
    let offset := i * rs
    if offset + rs ≤ event_data.length then
      let event_bytes := (event_data.drop offset).take rs
      if 13 ≤ event_bytes.length then some (decodeRecord event_bytes) else none
    else none)

/-- Full decode of a datagram: the `len(data) < 8` early return, then the
record loop, then the coordinate bounds filter.  This is the list
`events_to_add` of `_process_packet`. -/
def decodeEvents (rs : Nat) (data : List Nat) : List RawEvent :=
  if data.length < 8 then []
  else (decodeCandidates rs data).filter inBounds

/-- `deque(maxlen=cap).append`: when the deque is at capacity the element at
the opposite end is discarded before the append. -/
def dequeAppendMax (cap : Nat) (s : List α) (a : α) : List α :=
  if cap ≤ s.length then s.tail ++ [a] else s ++ [a]

/-- Stamp a decoded record with the single `current_time = time.time()`
reading taken inside the batch-insert critical section. -/
def stampEvent (now : ℚ) (r : RawEvent) : Event :=
  { timestamp := r.timestamp, x := r.x, y := r.y, polarity := r.polarity
    received_time := now }

/-- The batch-insert loop: append each stamped event to the bounded deque. -/
def insertBatch (evs : List Event) (raws : List RawEvent) (now : ℚ) : List Event :=
  raws.foldl (fun st r => dequeAppendMax capacity st (stampEvent now r)) evs

/-- Rolling latency sample update: `if len >= max_latency_samples: pop(0)`,
then `append`. -/
def pushLatency (lats : List ℚ) (l : ℚ) : List ℚ :=
  (if max_latency_samples ≤ lats.length then lats.drop 1 else lats) ++ [l]

/-- Mutable state touched by the receiver: the event deque, the
`stats` counters and the latency sample (`EventData` plus
`UDPEventReceiver.packet_latencies`). -/
structure ReceiverState where
  events : List Event
  eventsCount : Nat
  packets : Nat
  bytes : Nat
  packet_latencies : List ℚ
  deriving Repr, DecidableEq

/-- `_process_packet(data)`.  `receiveTime` is the `time.time()` read at
function entry (used for the latency sample); `now` is the separate
`time.time()` read taken once inside the batch-insert lock (used to stamp
`received_time`).  Packet/byte totals are updated by the receive loop, not
here — see `receiveStep`. -/
def processPacket (data : List Nat) (receiveTime now : ℚ) (s : ReceiverState) :
    ReceiverState :=
  if data.length < 8 then s
  else
    let packet_timestamp := leNat (data.take 8)
    let packet_latency : ℚ := receiveTime * 1000000 - (packet_timestamp : ℚ)
    let lats := pushLatency s.packet_latencies packet_latency
    let events_to_add := (decodeCandidates event_size data).filter inBounds
    let events' := insertBatch s.events events_to_add now
    let count' :=
      if events_to_add.isEmpty then s.eventsCount
      else s.eventsCount + events_to_add.length
    { events := events', eventsCount := count', packets := s.packets,
      bytes := s.bytes, packet_latencies := lats }

/-- One iteration of `_receive_loop` after a successful `recvfrom`:
process the packet, then `stats['packets'] += 1` and
`stats['bytes'] += len(data)`. -/
def receiveStep (data : List Nat) (receiveTime now : ℚ) (s : ReceiverState) :
    ReceiverState :=
  let s' := processPacket data receiveTime now s
  { s' with packets := s'.packets + 1, bytes := s'.bytes + data.length }

/-- `EventData.get_recent_events(time_window)`: filter the stored events by
`received_time >= current_time - time_window`, preserving deque order. -/
def get_recent_events (events : List Event) (now time_window : ℚ) : List Event :=
  events.filter (fun e => decide (now - time_window ≤ e.received_time))

/-- An active dot produced by `update_events`: raw screen coordinates,
polarity and the computed fade alpha. -/
structure ActiveDot where
  x : Nat
  y : Nat
  polarity : Int
  alpha : ℚ
  deriving Repr, DecidableEq

/-- `max(0.0, min(1.0, a))` — the clamp applied to the fade alpha. -/
def clamp01 (a : ℚ) : ℚ := max 0 (min 1 a)

/-- The fade alpha as a function of age: `(DOT_FADE_DURATION - age) /
DOT_FADE_DURATION`, clamped to `[0, 1]`. -/
def fadeAlpha (age : ℚ) : ℚ :=
  clamp01 ((DOT_FADE_DURATION - age) / DOT_FADE_DURATION)

/-- The per-event body shared by all branches of `update_events`:
`age = current_time - received_time`; keep the event with the clamped
linear fade alpha iff `age <= DOT_FADE_DURATION`. -/
def processEvent (now : ℚ) (e : Event) : Option ActiveDot :=
  let age := now - e.received_time
  if age ≤ DOT_FADE_DURATION then
    some { x := e.x, y := e.y, polarity := e.polarity
           alpha := clamp01 ((DOT_FADE_DURATION - age) / DOT_FADE_DURATION) }
  else none

/-- The sequential branch of `update_events` (`len(recent_events) <= 100`):
one pass appending a dot per unexpired event. -/
def update_events_seq (now : ℚ) (recents : List Event) : List ActiveDot :=
  recents.filterMap (processEvent now)

/-- `chunk_size = max(50, len(recent_events) // 4)`. -/
def chunk_size (n : Nat) : Nat := max 50 (n / 4)

/-- `[l[i:i+k] for i in range(0, len(l), k)]`: `range(0, n, k)` has
`⌈n/k⌉ = (n + k - 1) / k` steps, step `i` slicing `k` items at offset `i*k`. -/
def chunksOf (k : Nat) (l : List α) : List (List α) :=
  (List.range ((l.length + k - 1) / k)).map (fun i => (l.drop (i * k)).take k)

/-- The parallel branch of `update_events` (`len(recent_events) > 100`):
split into chunks, map `process_event_chunk` over the chunks
(`ThreadPoolExecutor.map` keeps chunk order), then flatten with `extend`. -/
def update_events_chunked (now : ℚ) (recents : List Event) : List ActiveDot :=
  ((chunksOf (chunk_size recents.length) recents).map
    (fun c => c.filterMap (processEvent now))).flatten

/-- Counter snapshot consumed by `_print_performance_stats`
(`self.event_data.stats`). -/
structure Stats where
  packets : Nat
  events : Nat
  bytes : Nat
  deriving Repr, DecidableEq

/-- The numbers reported by `_print_performance_stats` when `duration > 0`. -/
structure StatsReport where
  events_per_sec : ℚ
  avg_throughput_mbps : ℚ
  avg_latency : ℚ
  max_latency : ℚ
  deriving Repr, DecidableEq

/-- `avg_latency`: `0` when the sample is empty, else `sum / len`. -/
def latencyAvg (lat : List ℚ) : ℚ :=
  if lat.isEmpty then 0 else lat.sum / (lat.length : ℚ)

/-- `max_latency`: `0` when the sample is empty, else Python's `max(list)`. -/
def latencyMax (lat : List ℚ) : ℚ :=
  match lat with
  | [] => 0
  | h :: t => t.foldl max h

/-- `_print_performance_stats`: with `duration = current_time - start_time`,
report `total_events / duration`, `(total_bytes / 2^20) / duration` and the
latency aggregates when `duration > 0`; otherwise no rates are computed
(`none`).  It only reads the counters. -/
def print_performance_stats (startTime now : ℚ) (st : Stats) (lat : List ℚ) :
    Option StatsReport :=
  let duration := now - startTime
  if 0 < duration then
    some { events_per_sec := (st.events : ℚ) / duration
           avg_throughput_mbps := ((st.bytes : ℚ) / (1024 * 1024)) / duration
           avg_latency := latencyAvg lat
           max_latency := latencyMax lat }
  else none

/-! ## Helper lemmas about the bounded deque -/

/-- Under the size invariant, a `maxlen` append is: append, then drop the
overflow (0 or 1 element) from the front. -/
theorem dequeAppendMax_eq_drop {α : Type _} (cap : Nat) (s : List α) (a : α)
    (hcap : 1 ≤ cap) (hs : s.length ≤ cap) :
    dequeAppendMax cap s a = (s ++ [a]).drop (s.length + 1 - cap) := by
  unfold dequeAppendMax
  by_cases h : cap ≤ s.length
  · have hlen : s.length = cap := le_antisymm hs h
    have hk : s.length + 1 - cap = 1 := by omega
    rw [if_pos h, hk]
    cases s with
    | nil => simp at hlen; omega
    | cons x xs => simp
  · have hk : s.length + 1 - cap = 0 := by omega
    rw [if_neg h, hk, List.drop_zero]

/-- A `maxlen` append preserves the size invariant. -/
theorem dequeAppendMax_length {α : Type _} (cap : Nat) (s : List α) (a : α)
    (hcap : 1 ≤ cap) (hs : s.length ≤ cap) :
    (dequeAppendMax cap s a).length ≤ cap := by
  rw [dequeAppendMax_eq_drop cap s a hcap hs, List.length_drop]
  simp only [List.length_append, List.length_cons, List.length_nil]
  omega

/-- Folding `maxlen` appends over a list keeps exactly the last `cap`
elements of `s ++ l`, in order. -/
theorem foldl_dequeAppendMax {α : Type _} (cap : Nat) (hcap : 1 ≤ cap) :
    ∀ (l s : List α), s.length ≤ cap →
      l.foldl (dequeAppendMax cap) s = (s ++ l).drop (s.length + l.length - cap)
  | [], s, hs => by
    have h0 : s.length - cap = 0 := by omega
    simp [h0]
  | a :: l, s, hs => by
    rw [List.foldl_cons,
      foldl_dequeAppendMax cap hcap l _ (dequeAppendMax_length cap s a hcap hs),
      dequeAppendMax_eq_drop cap s a hcap hs]
    have hk : s.length + 1 - cap ≤ (s ++ [a]).length := by
      simp only [List.length_append, List.length_cons, List.length_nil]; omega
    rw [List.length_drop, ← List.drop_append_of_le_length hk, List.drop_drop]
    have harith : s.length + 1 - cap +
        ((s ++ [a]).length - (s.length + 1 - cap) + l.length - cap) =
        s.length + (a :: l).length - cap := by
      simp only [List.length_append, List.length_cons, List.length_nil]
      omega
    rw [harith, List.append_assoc]
    rfl

/-- Membership in a single `maxlen` append: old element or the new one. -/
theorem mem_dequeAppendMax {α : Type _} (cap : Nat) (s : List α) (a e : α)
    (h : e ∈ dequeAppendMax cap s a) : e ∈ s ∨ e = a := by
  unfold dequeAppendMax at h
  by_cases hc : cap ≤ s.length
  · rw [if_pos hc] at h
    rcases List.mem_append.mp h with h2 | h2
    · exact Or.inl (List.mem_of_mem_tail h2)
    · exact Or.inr (List.mem_singleton.mp h2)
  · rw [if_neg hc] at h
    rcases List.mem_append.mp h with h2 | h2
    · exact Or.inl h2
    · exact Or.inr (List.mem_singleton.mp h2)

/-- Every element after folding `maxlen` appends of `f`-images is an old
element or the image of an inserted one. -/
theorem mem_foldl_dequeAppendMax {α β : Type _} (cap : Nat) (f : β → α) :
    ∀ (l : List β) (s : List α) (e : α),
      e ∈ l.foldl (fun st r => dequeAppendMax cap st (f r)) s →
      e ∈ s ∨ ∃ r ∈ l, e = f r
  | [], _, _, h => Or.inl h
  | a :: l, s, e, h => by
    rcases mem_foldl_dequeAppendMax cap f l (dequeAppendMax cap s (f a)) e h
      with h1 | h1
    · rcases mem_dequeAppendMax cap s (f a) e h1 with h2 | h2
      · exact Or.inl h2
      · exact Or.inr ⟨a, List.mem_cons_self a l, h2⟩
    · rcases h1 with ⟨r, hr, he⟩
      exact Or.inr ⟨r, List.mem_cons_of_mem a hr, he⟩

/-! ## Helper lemmas about the decoder -/

/-- A `filterMap` whose function always succeeds is a `map`. -/
theorem filterMap_eq_map_of_forall_some {α β : Type _} (f : α → Option β)
    (g : α → β) : ∀ l : List α, (∀ a ∈ l, f a = some (g a)) →
      l.filterMap f = l.map g
  | [], _ => rfl
  | a :: l, h => by
    rw [List.filterMap_cons, h a (List.mem_cons_self a l), List.map_cons,
      filterMap_eq_map_of_forall_some f g l
        (fun x hx => h x (List.mem_cons_of_mem a hx))]

/-- For record sizes of at least 13 bytes the two guards in the record loop
always succeed, so the candidate list is a plain map over the record
indices: record `i` is the `rs`-byte slice at datagram offset `8 + i*rs`. -/
theorem decodeCandidates_eq_map (rs : Nat) (hrs : 13 ≤ rs) (data : List Nat) :
    decodeCandidates rs data =
      (List.range ((data.length - 8) / rs)).map
        (fun i => decodeRecord ((data.drop (8 + i * rs)).take rs)) := by
  simp only [decodeCandidates, List.length_drop]
  apply filterMap_eq_map_of_forall_some
  intro i hi
  rw [List.mem_range] at hi
  have hrs0 : 0 < rs := by omega
  have hfit : i * rs + rs ≤ data.length - 8 := by
    have h2 : (i + 1) * rs ≤ ((data.length - 8) / rs) * rs :=
      Nat.mul_le_mul_right rs hi
    have h3 : ((data.length - 8) / rs) * rs ≤ data.length - 8 :=
      Nat.div_mul_le_self _ _
    have h4 : (i + 1) * rs = i * rs + rs := by ring
    omega
  rw [if_pos hfit, List.drop_drop]
  have hbytes : ((data.drop (8 + i * rs)).take rs).length = rs := by
    rw [List.length_take, List.length_drop]
    omega
  rw [hbytes, if_pos hrs]

/-! ## Claim theorems -/

/-- C1: starting from the empty store, any sequence of `deque(maxlen=100000)`
appends leaves at most `capacity = 100000` events in the store; and after
inserting `capacity + m` events (`m > 0`) the store holds exactly the last
`capacity` inserted events in their original relative order (the oldest is
evicted on each insert once full). -/
theorem C1_event_store_bounded_ring (l : List Event) :
    (l.foldl (dequeAppendMax capacity) []).length ≤ capacity ∧
    (∀ m, 0 < m → l.length = capacity + m →
      l.foldl (dequeAppendMax capacity) [] = l.drop m) := by
  have hcap : 1 ≤ capacity := by norm_num [capacity]
  have h := foldl_dequeAppendMax capacity hcap l [] (by simp)
  simp only [List.nil_append, List.length_nil, Nat.zero_add] at h
  refine ⟨?_, ?_⟩
  · rw [h, List.length_drop]; omega
  · intro m hm hl
    have hdrop : l.length - capacity = m := by omega
    rw [h, hdrop]

/-- Default event used to instantiate witnesses. -/
def evW : Event :=
  { timestamp := 0, x := 0, y := 0, polarity := 0, received_time := 0 }

set_option maxRecDepth 4000 in
/-- Witness for C1 at a concrete insertion sequence of length
`capacity + 1`. -/
theorem C1_event_store_bounded_ring_witness :
    ((List.replicate (capacity + 1) evW).foldl (dequeAppendMax capacity)
      []).length ≤ capacity ∧
    (List.replicate (capacity + 1) evW).foldl (dequeAppendMax capacity) []
      = (List.replicate (capacity + 1) evW).drop 1 := by
  have h := C1_event_store_bounded_ring (List.replicate (capacity + 1) evW)
  exact ⟨h.1, h.2 1 Nat.one_pos (List.length_replicate _ _)⟩

/-- C3: a datagram of length `8 + k*rs + r` with `0 ≤ r < rs` decodes to
exactly `k = (len - 8) / rs` candidate records (before the bounds filter),
record `i` being read from offset `8 + i*rs`; the trailing `r` bytes are
discarded and decoding stays a total function (no error value exists).
Stated for any record size of at least the 13 required bytes; the
visualizer injects `event_size = 16`. -/
theorem C3_whole_record_prefix (rs k r : Nat) (data : List Nat)
    (hrs : 13 ≤ rs) (hr : r < rs) (hlen : data.length = 8 + k * rs + r) :
    (decodeCandidates rs data).length = k ∧
    k = (data.length - 8) / rs ∧
    ∀ i, i < k → (decodeCandidates rs data)[i]? =
      some (decodeRecord ((data.drop (8 + i * rs)).take rs)) := by
  have hrs0 : 0 < rs := by omega
  have hk : (data.length - 8) / rs = k := by
    have h1 : data.length - 8 = r + rs * k := by
      rw [hlen]; ring_nf; omega
    rw [h1, Nat.add_mul_div_left r k hrs0, Nat.div_eq_of_lt hr, Nat.zero_add]
  rw [decodeCandidates_eq_map rs hrs data, hk]
  refine ⟨by simp, rfl, ?_⟩
  intro i hi
  rw [List.getElem?_map, List.getElem?_range hi]
  rfl

/-- Witness for C3: a 45-byte all-zero datagram with 16-byte records decodes
to `⌊(45-8)/16⌋ = 2` candidate records, the 13 trailing bytes discarded. -/
theorem C3_whole_record_prefix_witness :
    (decodeCandidates 16 (List.replicate 45 0)).length = 2 ∧
    2 = ((List.replicate 45 0 : List Nat).length - 8) / 16 ∧
    ∀ i, i < 2 → (decodeCandidates 16 (List.replicate 45 0))[i]? =
      some (decodeRecord (((List.replicate 45 0 : List Nat).drop
        (8 + i * 16)).take 16)) :=
  C3_whole_record_prefix 16 2 5 (List.replicate 45 0) (by norm_num)
    (by norm_num) (by simp)

/-- Every event in the store after `_process_packet` is either an event that
was already stored or one of this packet's decoded in-bounds events stamped
with the batch clock reading. -/
theorem mem_processPacket_events (data : List Nat) (rt now : ℚ)
    (s : ReceiverState) (ev : Event)
    (hm : ev ∈ (processPacket data rt now s).events) :
    ev ∈ s.events ∨
      ∃ r ∈ decodeEvents event_size data, ev = stampEvent now r := by
  unfold processPacket at hm
  by_cases h : data.length < 8
  · rw [if_pos h] at hm
    exact Or.inl hm
  · rw [if_neg h] at hm
    simp only [insertBatch] at hm
    rcases mem_foldl_dequeAppendMax capacity (stampEvent now) _ _ ev hm
      with h1 | h1
    · exact Or.inl h1
    · rcases h1 with ⟨r, hr, he⟩
      refine Or.inr ⟨r, ?_, he⟩
      unfold decodeEvents
      rw [if_neg h]
      exact hr

/-- Datagram holding a single record with `x = 1920`, `y = 0`:
8 zero header bytes, then a 16-byte record whose `x` field is
little-endian `[128, 7]`. -/
def pktX1920 : List Nat :=
  [0, 0, 0, 0, 0, 0, 0, 0] ++
  [0, 0, 0, 0, 0, 0, 0, 0, 128, 7, 0, 0, 1, 0, 0, 0]

/-- Counterexample to C2 as stated: the code's coordinate check
`0 <= x <= 1920 and 0 <= y <= 1080` is inclusive, so a record with
`x = screenWidth = 1920` is present in the decoded output. -/
theorem C2_counterexample_x_eq_screenWidth :
    decodeEvents event_size pktX1920 =
      [{ timestamp := 0, x := 1920, y := 0, polarity := 1 }] ∧
    screenWidth = 1920 :=
  ⟨by decide, rfl⟩

/-- C2 (amended): the decoder drops every record with `x > 1920` or
`y > 1080`; each record in the decoded output satisfies the inclusive
bounds `x ≤ 1920 = screenWidth` and `y ≤ 1080 = screenHeight` (not the
exclusive `x ≤ screenWidth - 1`), and only such records ever enter the
store. -/
theorem C2_bounds_filter_inclusive :
    (∀ (rs : Nat) (data : List Nat) (e : RawEvent),
      e ∈ decodeEvents rs data → e.x ≤ 1920 ∧ e.y ≤ 1080) ∧
    (∀ (data : List Nat) (rt now : ℚ) (s : ReceiverState) (ev : Event),
      ev ∈ (processPacket data rt now s).events →
      ev ∈ s.events ∨ (ev.x ≤ 1920 ∧ ev.y ≤ 1080)) := by
  have hdec : ∀ (rs : Nat) (data : List Nat) (e : RawEvent),
      e ∈ decodeEvents rs data → e.x ≤ 1920 ∧ e.y ≤ 1080 := by
    intro rs data e he
    unfold decodeEvents at he
    by_cases h : data.length < 8
    · rw [if_pos h] at he
      simp at he
    · rw [if_neg h] at he
      have hb := (List.mem_filter.mp he).2
      unfold inBounds at hb
      exact of_decide_eq_true hb
  refine ⟨hdec, ?_⟩
  intro data rt now s ev hm
  rcases mem_processPacket_events data rt now s ev hm with h1 | h1
  · exact Or.inl h1
  · rcases h1 with ⟨r, hr, he⟩
    have := hdec event_size data r hr
    exact Or.inr (by rw [he]; exact this)

/-- Witness for the amended C2, at the concrete datagram `pktX1920` and its
single decoded record. -/
theorem C2_bounds_filter_inclusive_witness :
    ({ timestamp := 0, x := 1920, y := 0, polarity := 1 } : RawEvent).x ≤ 1920 ∧
    ({ timestamp := 0, x := 1920, y := 0, polarity := 1 } : RawEvent).y ≤ 1080 :=
  C2_bounds_filter_inclusive.1 event_size pktX1920
    { timestamp := 0, x := 1920, y := 0, polarity := 1 } (by decide)

/-- C4: `get_recent_events` returns exactly the stored events with
`received_time ≥ now - window`, as a sublist of the store (so in insertion
order); it is a pure read — the store value is untouched — and repeated
calls with the same arguments on an unchanged store return the same
result. -/
theorem C4_queryWindow_exact (s : List Event) (now w : ℚ) :
    (get_recent_events s now w).Sublist s ∧
    (∀ e, e ∈ get_recent_events s now w ↔
      e ∈ s ∧ now - w ≤ e.received_time) ∧
    (∀ s', s' = s → get_recent_events s' now w = get_recent_events s now w) := by
  refine ⟨List.filter_sublist s, ?_, ?_⟩
  · intro e
    unfold get_recent_events
    rw [List.mem_filter]
    exact and_congr_right (fun _ => decide_eq_true_iff)
  · intro s' hs'
    rw [hs']

/-- Witness for C4 at a concrete one-event store. -/
theorem C4_queryWindow_exact_witness :
    get_recent_events [evW] 1 2 = get_recent_events [evW] 1 2 :=
  (C4_queryWindow_exact [evW] 1 2).2.2 [evW] rfl

/-- The clamp to `[0, 1]` is monotone. -/
theorem clamp01_mono {a b : ℚ} (h : a ≤ b) : clamp01 a ≤ clamp01 b :=
  max_le_max le_rfl (min_le_min le_rfl h)

/-- C5: an event whose age exceeds `DOT_FADE_DURATION` is excluded from the
active set; otherwise its alpha is `clamp((fadeWindow - age)/fadeWindow, 0, 1)`,
which is antitone in the age, exactly `1` at age `0` and exactly `0` at age
`DOT_FADE_DURATION`. -/
theorem C5_fade_alpha (now : ℚ) (e : Event) (a₁ a₂ : ℚ) :
    (DOT_FADE_DURATION < now - e.received_time → processEvent now e = none) ∧
    (now - e.received_time ≤ DOT_FADE_DURATION →
      processEvent now e =
        some ⟨e.x, e.y, e.polarity, fadeAlpha (now - e.received_time)⟩) ∧
    (a₁ ≤ a₂ → fadeAlpha a₂ ≤ fadeAlpha a₁) ∧
    fadeAlpha 0 = 1 ∧ fadeAlpha DOT_FADE_DURATION = 0 := by
  refine ⟨?_, ?_, ?_, ?_, ?_⟩
  · intro h
    simp only [processEvent]
    rw [if_neg (not_le.mpr h)]
  · intro h
    simp only [processEvent]
    rw [if_pos h]
    rfl
  · intro h
    unfold fadeAlpha
    apply clamp01_mono
    have hfw : (0 : ℚ) < DOT_FADE_DURATION := by norm_num [DOT_FADE_DURATION]
    exact (div_le_div_iff_of_pos_right hfw).mpr (sub_le_sub_left h _)
  · norm_num [fadeAlpha, clamp01, DOT_FADE_DURATION]
  · norm_num [fadeAlpha, clamp01, DOT_FADE_DURATION]

/-- Witness for C5 at concrete ages `1` (expired), `0` (fresh) and the two
endpoints of the fade window. -/
theorem C5_fade_alpha_witness :
    processEvent 1 evW = none ∧
    processEvent 0 evW =
      some ⟨evW.x, evW.y, evW.polarity, fadeAlpha (0 - evW.received_time)⟩ ∧
    fadeAlpha DOT_FADE_DURATION ≤ fadeAlpha 0 := by
  have h1 := C5_fade_alpha 1 evW 0 DOT_FADE_DURATION
  have h0 := C5_fade_alpha 0 evW 0 DOT_FADE_DURATION
  exact ⟨h1.1 (by norm_num [DOT_FADE_DURATION, evW]),
    h0.2.1 (by norm_num [DOT_FADE_DURATION, evW]),
    h1.2.2.1 (by norm_num [DOT_FADE_DURATION])⟩

/-- A running `max` fold yields one of the samples and bounds them all. -/
theorem foldl_max_spec (t : List ℚ) (h : ℚ) :
    t.foldl max h ∈ h :: t ∧ h ≤ t.foldl max h ∧
      ∀ x ∈ t, x ≤ t.foldl max h := by
  induction t generalizing h with
  | nil => exact ⟨List.mem_singleton.mpr rfl, le_rfl, by simp⟩
  | cons a t ih =>
    simp only [List.foldl_cons]
    obtain ⟨hmem, hle, hub⟩ := ih (max h a)
    refine ⟨?_, le_trans (le_max_left h a) hle, ?_⟩
    · rcases List.mem_cons.mp hmem with h1 | h1
      · rcases max_choice h a with h2 | h2
        · rw [h1, h2]; exact List.mem_cons_self _ _
        · rw [h1, h2]
          exact List.mem_cons_of_mem _ (List.mem_cons_self _ _)
      · exact List.mem_cons_of_mem _ (List.mem_cons_of_mem _ h1)
    · intro x hx
      rcases List.mem_cons.mp hx with h1 | h1
      · rw [h1]; exact le_trans (le_max_right h a) hle
      · exact hub x h1

/-- C6: when the elapsed duration is positive, the stats report is the event
counter over the elapsed time, the byte counter (in MiB) over the elapsed
time, and the average and maximum of the latency sample; when the elapsed
duration is not positive no division is performed (`none`), which is the
only guard needed; the aggregation is a pure read of the counters (it is a
function of the snapshot); and the latency sample stays bounded by
`max_latency_samples`. -/
theorem C6_stats_aggregator (startTime now : ℚ) (st : Stats) (lat : List ℚ) :
    (startTime < now →
      print_performance_stats startTime now st lat =
        some ⟨(st.events : ℚ) / (now - startTime),
          ((st.bytes : ℚ) / (1024 * 1024)) / (now - startTime),
          latencyAvg lat, latencyMax lat⟩) ∧
    (now ≤ startTime → print_performance_stats startTime now st lat = none) ∧
    (∀ x ∈ lat, x ≤ latencyMax lat) ∧
    (lat ≠ [] → latencyMax lat ∈ lat ∧
      latencyAvg lat * (lat.length : ℚ) = lat.sum) ∧
    (∀ l : ℚ, lat.length ≤ max_latency_samples →
      (pushLatency lat l).length ≤ max_latency_samples) := by
  refine ⟨?_, ?_, ?_, ?_, ?_⟩
  · intro h
    unfold print_performance_stats
    rw [if_pos (sub_pos.mpr h)]
  · intro h
    unfold print_performance_stats
    rw [if_neg (not_lt.mpr (sub_nonpos.mpr h))]
  · intro x hx
    cases lat with
    | nil => simp at hx
    | cons a t =>
      rcases List.mem_cons.mp hx with h1 | h1
      · rw [h1]; exact (foldl_max_spec t a).2.1
      · exact (foldl_max_spec t a).2.2 x h1
  · intro hne
    cases lat with
    | nil => exact absurd rfl hne
    | cons a t =>
      refine ⟨(foldl_max_spec t a).1, ?_⟩
      have hlen : (((a :: t).length : ℚ)) ≠ 0 := by
        simp only [List.length_cons]
        exact_mod_cast Nat.succ_ne_zero t.length
      unfold latencyAvg
      rw [if_neg (by simp)]
      exact div_mul_cancel₀ _ hlen
  · intro l hl
    unfold pushLatency
    by_cases h : max_latency_samples ≤ lat.length
    · rw [if_pos h]
      simp only [List.length_append, List.length_drop, List.length_cons,
        List.length_nil]
      simp only [max_latency_samples] at hl h ⊢
      omega
    · rw [if_neg h]
      simp only [List.length_append, List.length_cons, List.length_nil]
      simp only [max_latency_samples] at hl h ⊢
      omega

/-- Witness for C6 at `startTime = 0`, `now = 2`, counters `(1, 2, 3)` and
latency sample `[5]`. -/
theorem C6_stats_aggregator_witness :
    print_performance_stats 0 2 ⟨1, 2, 3⟩ [5] =
      some ⟨((2 : Nat) : ℚ) / (2 - 0),
        (((3 : Nat) : ℚ) / (1024 * 1024)) / (2 - 0),
        latencyAvg [5], latencyMax [5]⟩ ∧
    (latencyMax [5] ∈ ([5] : List ℚ) ∧
      latencyAvg [5] * ((([5] : List ℚ).length : Nat) : ℚ) =
        ([5] : List ℚ).sum) ∧
    (pushLatency [5] 7).length ≤ max_latency_samples := by
  have h := C6_stats_aggregator 0 2 ⟨1, 2, 3⟩ [5]
  exact ⟨h.1 (by norm_num), h.2.2.2.1 (by simp),
    h.2.2.2.2 7 (by norm_num [max_latency_samples])⟩

/-- C7: packet ingestion factors through the pure decoder: the state after
`_process_packet` is a function of the byte buffer, the two clock readings
and the previous state only — the stored events are exactly the old store
with `decodeEvents` output batch-appended, stamped with the caller's single
clock reading `now` (decoding itself never touches `received_time`), the
event counter grows by the decoded count, and the latency sample is a pure
function of the header bytes.  Decoding the same buffer twice therefore
yields identical event lists, and decoding has no effect on any other
state. -/
theorem C7_ingest_factors_through_pure_decode (data : List Nat) (rt now : ℚ)
    (s : ReceiverState) :
    processPacket data rt now s =
      { events := insertBatch s.events (decodeEvents event_size data) now,
        eventsCount := s.eventsCount + (decodeEvents event_size data).length,
        packets := s.packets, bytes := s.bytes,
        packet_latencies :=
          if data.length < 8 then s.packet_latencies
          else pushLatency s.packet_latencies
            (rt * 1000000 - ((leNat (data.take 8) : Nat) : ℚ)) } := by
  by_cases h : data.length < 8
  · simp only [processPacket, decodeEvents, if_pos h, insertBatch,
      List.foldl_nil, List.length_nil, Nat.add_zero]
  · simp only [processPacket, decodeEvents, if_neg h]
    by_cases he : ((decodeCandidates event_size data).filter inBounds).isEmpty
    · have hnil : (decodeCandidates event_size data).filter inBounds = [] :=
        List.isEmpty_iff.mp he
      rw [if_pos he, hnil]
      simp [insertBatch]
    · rw [if_neg he]

/-- Concatenating the first `m` chunks of size `k` gives the first `m*k`
elements. -/
theorem flatten_chunks_take {α : Type _} (k : Nat) :
    ∀ (m : Nat) (l : List α),
      ((List.range m).map (fun i => (l.drop (i * k)).take k)).flatten =
        l.take (m * k)
  | 0, l => by simp
  | m + 1, l => by
    rw [List.range_succ, List.map_append, List.flatten_append,
      flatten_chunks_take k m l]
    simp only [List.map_cons, List.map_nil, List.flatten_cons,
      List.flatten_nil, List.append_nil]
    rw [← List.take_add]
    congr 1
    ring

/-- The Python chunking `[l[i:i+k] for i in range(0, len(l), k)]` loses no
elements: its concatenation is the original list. -/
theorem flatten_chunksOf {α : Type _} (k : Nat) (hk : 0 < k) (l : List α) :
    (chunksOf k l).flatten = l := by
  unfold chunksOf
  rw [flatten_chunks_take k]
  have hle : l.length ≤ ((l.length + k - 1) / k) * k := by
    have hd := Nat.div_add_mod (l.length + k - 1) k
    have hm : (l.length + k - 1) % k < k := Nat.mod_lt _ hk
    rw [mul_comm]
    generalize hA : k * ((l.length + k - 1) / k) = A at hd ⊢
    generalize hR : (l.length + k - 1) % k = R at hd hm
    omega
  exact List.take_of_length_le hle

/-- C8: the chunked (parallel-map) branch of `update_events` computes the
same active-dot list as the sequential branch, for every event list and
clock reading — chunking is a performance strategy only. -/
theorem C8_chunked_eq_sequential (now : ℚ) (recents : List Event) :
    update_events_chunked now recents = update_events_seq now recents := by
  unfold update_events_chunked update_events_seq
  have hk : 0 < chunk_size recents.length :=
    lt_of_lt_of_le (by norm_num) (le_max_left 50 (recents.length / 4))
  rw [← List.filterMap_flatten, flatten_chunksOf _ hk]

/-- C9: a datagram shorter than 8 bytes is dropped softly — decode returns
zero events, `_process_packet` leaves the whole receiver state (store,
event counter, latency sample) unchanged, and the receive loop still bumps
only the packet and byte totals. -/
theorem C9_short_packet_soft_fail (data : List Nat) (rt now : ℚ)
    (s : ReceiverState) (h : data.length < 8) :
    decodeEvents event_size data = [] ∧
    processPacket data rt now s = s ∧
    receiveStep data rt now s =
      { s with packets := s.packets + 1, bytes := s.bytes + data.length } := by
  have h2 : processPacket data rt now s = s := by
    unfold processPacket
    rw [if_pos h]
  refine ⟨?_, h2, ?_⟩
  · unfold decodeEvents
    rw [if_pos h]
  · simp only [receiveStep, h2]

/-- Concrete receiver state used by witnesses. -/
def sW : ReceiverState := ⟨[evW], 1, 2, 3, [4]⟩

/-- Witness for C9 at a concrete 3-byte datagram. -/
theorem C9_short_packet_soft_fail_witness :
    decodeEvents event_size [1, 2, 3] = [] ∧
    processPacket [1, 2, 3] 0 0 sW = sW ∧
    receiveStep [1, 2, 3] 0 0 sW =
      { sW with packets := sW.packets + 1, bytes := sW.bytes + ([1, 2, 3] : List Nat).length } :=
  C9_short_packet_soft_fail [1, 2, 3] 0 0 sW (by norm_num)

/-- Datagram holding a single in-bounds record with `x = 5`, `y = 7`,
positive polarity. -/
def pktA : List Nat :=
  [0, 0, 0, 0, 0, 0, 0, 0] ++
  [0, 0, 0, 0, 0, 0, 0, 0, 5, 0, 7, 0, 1, 0, 0, 0]

/-- C10: every event stored by `_process_packet` that was not already in the
store carries the one `received_time` value `now` — the single clock
reading taken inside the batch-insert lock; consequently two events from
the same batch have equal age and equal fade alpha at any later query
time. -/
theorem C10_single_stamp_per_batch (data : List Nat) (rt now : ℚ)
    (s : ReceiverState) :
    (∀ e ∈ (processPacket data rt now s).events,
      e ∈ s.events ∨ e.received_time = now) ∧
    (∀ (t : ℚ) (e₁ e₂ : Event), e₁.received_time = now →
      e₂.received_time = now →
      t - e₁.received_time = t - e₂.received_time ∧
      Option.map ActiveDot.alpha (processEvent t e₁) =
        Option.map ActiveDot.alpha (processEvent t e₂)) := by
  constructor
  · intro e he
    rcases mem_processPacket_events data rt now s e he with h1 | h1
    · exact Or.inl h1
    · rcases h1 with ⟨r, _, hr⟩
      right
      rw [hr]
      rfl
  · intro t e₁ e₂ h1 h2
    refine ⟨by rw [h1, h2], ?_⟩
    simp only [processEvent, h1, h2]
    by_cases hc : t - now ≤ DOT_FADE_DURATION
    · rw [if_pos hc, if_pos hc]
      rfl
    · rw [if_neg hc, if_neg hc]

/-- Witness for C10 at the concrete datagram `pktA`, empty starting state
and batch stamp `now = 3`. -/
theorem C10_single_stamp_per_batch_witness :
    ((⟨0, 5, 7, 1, 3⟩ : Event) ∈ (⟨[], 0, 0, 0, []⟩ : ReceiverState).events ∨
      (⟨0, 5, 7, 1, 3⟩ : Event).received_time = 3) ∧
    Option.map ActiveDot.alpha (processEvent 3 ⟨0, 5, 7, 1, 3⟩) =
      Option.map ActiveDot.alpha (processEvent 3 ⟨0, 5, 7, 1, 3⟩) := by
  have h := C10_single_stamp_per_batch pktA 0 3 ⟨[], 0, 0, 0, []⟩
  exact ⟨h.1 ⟨0, 5, 7, 1, 3⟩ (by decide),
    (h.2 3 ⟨0, 5, 7, 1, 3⟩ ⟨0, 5, 7, 1, 3⟩ rfl rfl).2⟩

end NeuroUDP
